import Mathlib

/-!
Verification of the Huffman-coding engine in `src/main.py`.

The Python program builds a Huffman tree with `heapq` over a `Node` class
whose `__lt__` compares only frequencies, derives binary code strings by a
recursive traversal, and reports compression statistics.  This file embeds
those functions shallowly:

* `Node` mirrors the Python `Node` class (optional character, frequency,
  optional children).
* `siftdownLoop`, `siftupLoop`, `heappush`, `heappop` are the CPython
  `heapq` primitives (`_siftdown`, `_siftup`, `heappush`, `heappop`),
  translated line by line; since only `Node.__lt__` is invoked, the
  comparisons are frequency comparisons.  The two sift loops and the merge
  loop are written with an explicit fuel argument so that they are
  structurally recursive and compute by kernel reduction; the fuel supplied
  at every call site (the loop counter's own bound) is always sufficient,
  and the fuel-exhaustion branches coincide with the loop-exit actions.
* `counter` mirrors `collections.Counter(text)` as an insertion-ordered
  association list, the iteration order of a Python dict.
* `build_huffman_tree`, `generate_huffman_codes`, `getCodesN` mirror the
  functions of the same names (`getCodesN` is `_get_codes_recursive`).
* `dictSet`/`dictGetD` are Python dict assignment and `dict.get(k, d)`.
* `original_size_bits`, `compressed_size_bits`, `savings_bits`,
  `savings_percent` mirror the size computation in `huffman_utility`.

Tree-level specification notions (`leafCharsN`, `leafCodesN`,
`allNodesOK`, `encode_text`) are stated after the embedding and are related
to it by the theorems at the end of the file.
-/

/-- The Python `Node` class: an optional character, a frequency, and two
optional children (`None` encoded as `none`). -/
inductive Node where
  | mk (char : Option Char) (freq : Nat) (left : Option Node) (right : Option Node)

instance : Inhabited Node := ⟨.mk none 0 none none⟩

/-- Field accessor for `node.char`. -/
def Node.char : Node → Option Char
  | .mk c _ _ _ => c

/-- Field accessor for `node.freq`. -/
def Node.freq : Node → Nat
  | .mk _ f _ _ => f

/-- Field accessor for `node.left`. -/
def Node.left : Node → Option Node
  | .mk _ _ l _ => l

/-- Field accessor for `node.right`. -/
def Node.right : Node → Option Node
  | .mk _ _ _ r => r

/-- CPython `heapq._siftdown(heap, startpos, pos)` after `newitem = heap[pos]`
has been read: walk up from `pos`, moving parents that are larger than
`newitem` down, and finally store `newitem`.  `fuel` bounds the number of
iterations; `pos` strictly decreases each iteration, so calling with
`fuel = pos` is exact, and the `fuel = 0` fallback equals the loop-exit
action (at fuel 0 reached from fuel `pos` the loop condition is false). -/
def siftdownLoop : Nat → List Node → Nat → Nat → Node → List Node
  | 0, heap, _, pos, newitem => heap.set pos newitem
  | fuel + 1, heap, startpos, pos, newitem =>
    if startpos < pos then
      let parentpos := (pos - 1) / 2
      let parent := heap.getD parentpos default
      if newitem.freq < parent.freq then
        siftdownLoop fuel (heap.set pos parent) startpos parentpos newitem
      else heap.set pos newitem
    else heap.set pos newitem

/-- CPython `heapq._siftdown(heap, startpos, pos)`. -/
def siftdown (heap : List Node) (startpos pos : Nat) : List Node :=
  siftdownLoop pos heap startpos pos (heap.getD pos default)

/-- CPython `heapq.heappush(heap, item)`: append then sift down from the
last position. -/
def heappush (heap : List Node) (item : Node) : List Node :=
  siftdown (heap ++ [item]) 0 heap.length

/-- CPython `heapq._siftup(heap, pos)` after `newitem = heap[pos]` has been
read: bubble the smaller child up until a leaf position is reached, then
store `newitem` there and call `_siftdown`.  `pos` moves to `2*pos+1` or
`2*pos+2` each iteration, so `fuel = heap.length` is always sufficient. -/
def siftupLoop : Nat → List Node → Nat → Nat → Node → List Node
  | 0, heap, startpos, pos, newitem =>
    siftdownLoop pos (heap.set pos newitem) startpos pos newitem
  | fuel + 1, heap, startpos, pos, newitem =>
    let endpos := heap.length
    let childpos := 2 * pos + 1
    if childpos < endpos then
      let rightpos := childpos + 1
      let childpos2 :=
        if rightpos < endpos ∧
            ¬ (heap.getD childpos default).freq < (heap.getD rightpos default).freq then
          rightpos
        else childpos
      siftupLoop fuel (heap.set pos (heap.getD childpos2 default)) startpos childpos2 newitem
    else siftdownLoop pos (heap.set pos newitem) startpos pos newitem

/-- CPython `heapq._siftup(heap, pos)`. -/
def siftup (heap : List Node) (pos : Nat) : List Node :=
  siftupLoop heap.length heap pos pos (heap.getD pos default)

/-- CPython `heapq.heappop(heap)`: pop the last element; if the heap is
still nonempty, return the old root, put the last element at the root and
sift up.  (Python raises `IndexError` on an empty heap; every call in the
program is on a nonempty heap, and the embedding returns a default value
there.)  Returns the popped node together with the remaining heap. -/
def heappop (heap : List Node) : Node × List Node :=
  match heap.getLast? with
  | none => (default, [])
  | some lastelt =>
    match heap.dropLast with
    | [] => (lastelt, [])
    | x :: rest => (x, siftup (lastelt :: rest) 0)

/-- One step of `collections.Counter`: record one further occurrence of `c`
in an insertion-ordered table (a Python dict preserves insertion order and
updates in place). -/
def counterIns : List (Char × Nat) → Char → List (Char × Nat)
  | [], c => [(c, 1)]
  | (k, v) :: rest, c => if k = c then (k, v + 1) :: rest else (k, v) :: counterIns rest c

/-- `collections.Counter(text)` as an insertion-ordered association list;
iteration order is the order of first occurrence, as for a Python dict. -/
def counter (text : List Char) : List (Char × Nat) :=
  text.foldl counterIns []

/-- The `while len(priority_queue) > 1` merge loop of `build_huffman_tree`:
pop the two lowest-weight nodes (first popped becomes `left_child`, second
`right_child`), merge them into an internal node carrying the sum of the
frequencies, and push the merged node back.  Each iteration shrinks the
heap by one, so `fuel = heap.length` is always sufficient, and the
`fuel = 0` fallback equals the loop-exit action. -/
def buildLoop : Nat → List Node → List Node
  | 0, heap => heap
  | fuel + 1, heap =>
    if 1 < heap.length then
      let p1 := heappop heap
      let p2 := heappop p1.2
      buildLoop fuel
        (heappush p2.2 (Node.mk none (p1.1.freq + p2.1.freq) (some p1.1) (some p2.1)))
    else heap

/-- Pushing one leaf `Node(char, freq)` per frequency-table entry onto the
heap: the `for char, freq in frequencies.items()` loop of
`build_huffman_tree`. -/
def pushLeaves (acc : List Node) (l : List (Char × Nat)) : List Node :=
  l.foldl (fun h cf => heappush h (Node.mk (some cf.1) cf.2 none none)) acc

/-- `build_huffman_tree(text)`: `None` and an empty table for empty input;
otherwise count frequencies, push one leaf per symbol, wrap a lone leaf in
a synthetic parent `Node(None, freq, node, None)`, run the merge loop, and
return the root with the frequency table. -/
def build_huffman_tree (text : List Char) : Option Node × List (Char × Nat) :=
  if text = [] then (none, [])
  else
    let frequencies := counter text
    let pq0 := pushLeaves [] frequencies
    let pq1 :=
      if pq0.length = 1 then
        let p := heappop pq0
        heappush p.2 (Node.mk none p.1.freq (some p.1) none)
      else pq0
    (some (heappop (buildLoop pq1.length pq1)).1, frequencies)

/-- Python dict assignment `d[k] = v`: update in place if the key exists,
otherwise append at the end. -/
def dictSet : List (Char × List Char) → Char → List Char → List (Char × List Char)
  | [], k, v => [(k, v)]
  | (k0, v0) :: rest, k, v =>
    if k0 = k then (k0, v) :: rest else (k0, v0) :: dictSet rest k v

/-- Python `d.get(k, dflt)` on an insertion-ordered association list. -/
def dictGetD : List (Char × List Char) → Char → List Char → List Char
  | [], _, dflt => dflt
  | (k0, v0) :: rest, k, dflt => if k0 = k then v0 else dictGetD rest k dflt

/-- The keys of an association list, in order. -/
def dictKeys {α : Type} (d : List (Char × α)) : List Char :=
  d.map Prod.fst

/-- `_get_codes_recursive(node, current_code)` on a non-`None` node: a node
carrying a character records its code (substituting `"0"` for an empty
path) and returns; otherwise the traversal descends left with `'0'`
appended and then right with `'1'` appended, the `if node is None: return`
guard of the Python code appearing here as the `none` cases for the
children.  Code strings are `List Char` over `'0'`/`'1'`. -/
def getCodesN : Node → List Char → List (Char × List Char) → List (Char × List Char)
  | .mk c _ l r, cur, codes =>
    match c with
    | some ch => if cur = [] then dictSet codes ch ['0'] else dictSet codes ch cur
    | none =>
      let codes1 :=
        match l with
        | none => codes
        | some ln => getCodesN ln (cur ++ ['0']) codes
      match r with
      | none => codes1
      | some rn => getCodesN rn (cur ++ ['1']) codes1

/-- `_get_codes_recursive(node, current_code)` including the
`if node is None: return` guard at the top of the Python function. -/
def getCodes (n : Option Node) (cur : List Char) (codes : List (Char × List Char)) :
    List (Char × List Char) :=
  match n with
  | none => codes
  | some nd => getCodesN nd cur codes

/-- `generate_huffman_codes(text)`: build the tree, return empty results
when the root is `None`, otherwise traverse the tree starting with an
empty code accumulator. -/
def generate_huffman_codes (text : List Char) :
    List (Char × List Char) × List (Char × Nat) × Option Node :=
  let br := build_huffman_tree text
  match br.1 with
  | none => ([], [], none)
  | some root => (getCodes (some root) [] [], br.2, some root)

/-- `original_size_bits = len(input_text) * 8` from `huffman_utility`. -/
def original_size_bits (text : List Char) : Nat :=
  text.length * 8

/-- The `compressed_size_bits` accumulation loop of `huffman_utility`:
`compressed_size_bits += len(codes.get(char, "")) * freq` over the
frequency table. -/
def compressed_size_bits (frequencies : List (Char × Nat))
    (codes : List (Char × List Char)) : Nat :=
  frequencies.foldl (fun acc cf => acc + (dictGetD codes cf.1 []).length * cf.2) 0

/-- `savings = original_size_bits - compressed_size_bits` (a Python int,
possibly negative). -/
def savings_bits (text : List Char) (frequencies : List (Char × Nat))
    (codes : List (Char × List Char)) : Int :=
  (original_size_bits text : Int) - (compressed_size_bits frequencies codes : Int)

/-- `savings_percent = (savings / original_size_bits * 100) if
original_size_bits > 0 else 0`, as an exact rational. -/
def savings_percent (text : List Char) (frequencies : List (Char × Nat))
    (codes : List (Char × List Char)) : Rat :=
  if 0 < original_size_bits text then
    (savings_bits text frequencies codes : Rat) / (original_size_bits text : Rat) * 100
  else 0

/-- Re-encoding of the input with a code table, as described by the spec's
round-trip property: concatenate each symbol's code (`d.get(c, "")`). -/
def encode_text (text : List Char) (codes : List (Char × List Char)) : List Char :=
  (text.map (fun c => dictGetD codes c [])).flatten

/-- The characters stored at the code-recording nodes of a tree, in
traversal order.  (In every tree the builder produces, these are exactly
the leaves.) -/
def leafCharsN : Node → List Char
  | .mk c _ l r =>
    match c with
    | some ch => [ch]
    | none =>
      (match l with
       | none => []
       | some ln => leafCharsN ln) ++
      (match r with
       | none => []
       | some rn => leafCharsN rn)

/-- The (character, code) pairs the traversal of `getCodesN` can record
from a node reached with accumulated path `cur`: a character-carrying node
records its path (with the `"0"` substitution for an empty path), an
internal node contributes its children's pairs with `'0'` respectively
`'1'` appended. -/
def leafCodesN : Node → List Char → List (Char × List Char)
  | .mk c _ l r, cur =>
    match c with
    | some ch => [(ch, if cur = [] then ['0'] else cur)]
    | none =>
      (match l with
       | none => []
       | some ln => leafCodesN ln (cur ++ ['0'])) ++
      (match r with
       | none => []
       | some rn => leafCodesN rn (cur ++ ['1']))

/-- Decides claim C1's invariant on a single node and its descendants:
every node without a character (an internal node) has both children
present and a frequency equal to the sum of the children's frequencies. -/
def allNodesOK : Node → Bool
  | .mk c f l r =>
    (match c, l, r with
     | none, some ln, some rn => f == ln.freq + rn.freq
     | none, _, _ => false
     | some _, _, _ => true)
    && (match l with
        | none => true
        | some ln => allNodesOK ln)
    && (match r with
        | none => true
        | some rn => allNodesOK rn)

/-- `allNodesOK` lifted to an optional tree; an absent tree has no internal
nodes, so it trivially satisfies the invariant. -/
def allNodesOKO : Option Node → Bool
  | none => true
  | some n => allNodesOK n

/-- Size of a tree, used to justify the custom induction principle. -/
def Node.size : Node → Nat
  | .mk _ _ l r =>
    1 +
      (match l with
       | none => 0
       | some ln => ln.size) +
      (match r with
       | none => 0
       | some rn => rn.size)

/-- Size of an optional subtree. -/
def osize : Option Node → Nat
  | none => 0
  | some n => n.size

theorem two_mem_le_length {α : Type} {l : List α} {a b : α}
    (ha : a ∈ l) (hb : b ∈ l) (hab : a ≠ b) : 2 ≤ l.length := by
  match l with
  | [] => cases ha
  | [x] =>
    rw [List.mem_singleton] at ha hb
    exact absurd (ha.trans hb.symm) hab
  | x :: y :: t => simp only [List.length_cons]; omega

theorem getLast?_split {heap : List Node} {a : Node} (h : heap.getLast? = some a) :
    heap = heap.dropLast ++ [a] := by
  have hne : heap ≠ [] := by rintro rfl; simp at h
  rw [List.getLast?_eq_getLast heap hne, Option.some_inj] at h
  rw [← h]
  exact (List.dropLast_append_getLast hne).symm

theorem mem_set_transfer {l : List Node} {i j : Nat} {b x : Node}
    (hi : i < l.length) (hj : j < l.length) (hij : i ≠ j) (hx : x ∈ l.set i b) :
    x ∈ (l.set i (l.getD j default)).set j b := by
  rw [List.mem_iff_getElem] at hx
  obtain ⟨k, hk, hkx⟩ := hx
  rw [List.length_set] at hk
  by_cases hki : k = i
  · subst hki
    have hxb : x = b := by
      rw [← hkx]; exact List.getElem_set_self (by simpa using hk)
    subst hxb
    rw [List.mem_iff_getElem]
    exact ⟨j, by simpa using hj, List.getElem_set_self (by simpa using hj)⟩
  · have hxl : x = l[k] := by
      rw [← hkx]; exact List.getElem_set_ne (Ne.symm hki) (by simpa using hk)
    by_cases hkj : k = j
    · subst hkj
      rw [List.mem_iff_getElem]
      refine ⟨i, by simpa using hi, ?_⟩
      rw [List.getElem_set_ne (Ne.symm hij) (by simpa using hi),
        List.getElem_set_self (by simpa using hi), List.getD_eq_getElem l default hj, hxl]
    · rw [List.mem_iff_getElem]
      refine ⟨k, by simpa using hk, ?_⟩
      rw [List.getElem_set_ne (fun h => hkj h.symm) (by simpa using hk),
        List.getElem_set_ne (fun h => hki h.symm) (by simpa using hk), hxl]

theorem siftdownLoop_length (fuel : Nat) :
    ∀ (heap : List Node) (s pos : Nat) (item : Node),
      (siftdownLoop fuel heap s pos item).length = heap.length := by
  induction fuel with
  | zero => intro heap s pos item; simp [siftdownLoop]
  | succ n ih =>
    intro heap s pos item
    simp only [siftdownLoop]
    split
    · split
      · rw [ih]; simp
      · simp
    · simp

theorem mem_siftdownLoop (fuel : Nat) :
    ∀ (heap : List Node) (s pos : Nat) (item x : Node), pos < heap.length →
      x ∈ siftdownLoop fuel heap s pos item → x ∈ heap ∨ x = item := by
  induction fuel with
  | zero =>
    intro heap s pos item x _ hx
    exact List.mem_or_eq_of_mem_set hx
  | succ n ih =>
    intro heap s pos item x hpos hx
    simp only [siftdownLoop] at hx
    split at hx
    · split at hx
      · rename_i hsp _
        have hpp : (pos - 1) / 2 < heap.length := by omega
        have := ih (heap.set pos (heap.getD ((pos - 1) / 2) default)) s ((pos - 1) / 2)
          item x (by simpa using hpp) hx
        rcases this with h | h
        · rcases List.mem_or_eq_of_mem_set h with h2 | h2
          · exact Or.inl h2
          · subst h2
            rw [List.getD_eq_getElem heap default hpp]
            exact Or.inl (List.getElem_mem hpp)
        · exact Or.inr h
      · exact List.mem_or_eq_of_mem_set hx
    · exact List.mem_or_eq_of_mem_set hx

theorem siftdownLoop_mem (fuel : Nat) :
    ∀ (heap : List Node) (s pos : Nat) (item x : Node), pos < heap.length →
      x ∈ heap.set pos item → x ∈ siftdownLoop fuel heap s pos item := by
  induction fuel with
  | zero => intro heap s pos item x _ hx; simpa [siftdownLoop] using hx
  | succ n ih =>
    intro heap s pos item x hpos hx
    simp only [siftdownLoop]
    split
    · split
      · rename_i hsp _
        have hpp : (pos - 1) / 2 < heap.length := by omega
        have hne : pos ≠ (pos - 1) / 2 := by omega
        exact ih _ s _ item x (by simpa using hpp)
          (mem_set_transfer hpos hpp hne hx)
      · exact hx
    · exact hx

theorem siftupLoop_length (fuel : Nat) :
    ∀ (heap : List Node) (s pos : Nat) (item : Node),
      (siftupLoop fuel heap s pos item).length = heap.length := by
  induction fuel with
  | zero => intro heap s pos item; simp [siftupLoop, siftdownLoop_length]
  | succ n ih =>
    intro heap s pos item
    simp only [siftupLoop]
    split
    · rw [ih]; simp
    · rw [siftdownLoop_length]; simp

theorem mem_siftupLoop (fuel : Nat) :
    ∀ (heap : List Node) (s pos : Nat) (item x : Node), pos < heap.length →
      x ∈ siftupLoop fuel heap s pos item → x ∈ heap ∨ x = item := by
  induction fuel with
  | zero =>
    intro heap s pos item x hpos hx
    rcases mem_siftdownLoop pos _ s pos item x (by simpa using hpos) hx with h | h
    · exact List.mem_or_eq_of_mem_set h
    · exact Or.inr h
  | succ n ih =>
    intro heap s pos item x hpos hx
    simp only [siftupLoop] at hx
    split at hx
    · rename_i hcp
      set c2 := if 2 * pos + 1 + 1 < heap.length ∧
          ¬ (heap.getD (2 * pos + 1) default).freq < (heap.getD (2 * pos + 1 + 1) default).freq
        then 2 * pos + 1 + 1 else 2 * pos + 1 with hc2def
      have hc2 : c2 < heap.length := by
        rw [hc2def]; split
        · rename_i hco; exact hco.1
        · exact hcp
      rcases ih (heap.set pos (heap.getD c2 default)) s c2 item x (by simpa using hc2) hx
        with h | h
      · rcases List.mem_or_eq_of_mem_set h with h2 | h2
        · exact Or.inl h2
        · subst h2
          rw [List.getD_eq_getElem heap default hc2]
          exact Or.inl (List.getElem_mem hc2)
      · exact Or.inr h
    · rcases mem_siftdownLoop pos _ s pos item x (by simpa using hpos) hx with h | h
      · exact List.mem_or_eq_of_mem_set h
      · exact Or.inr h

theorem siftupLoop_mem (fuel : Nat) :
    ∀ (heap : List Node) (s pos : Nat) (item x : Node), pos < heap.length →
      x ∈ heap.set pos item → x ∈ siftupLoop fuel heap s pos item := by
  induction fuel with
  | zero =>
    intro heap s pos item x hpos hx
    apply siftdownLoop_mem pos _ s pos item x (by simpa using hpos)
    rw [List.set_set]
    exact hx
  | succ n ih =>
    intro heap s pos item x hpos hx
    simp only [siftupLoop]
    split
    · rename_i hcp
      set c2 := if 2 * pos + 1 + 1 < heap.length ∧
          ¬ (heap.getD (2 * pos + 1) default).freq < (heap.getD (2 * pos + 1 + 1) default).freq
        then 2 * pos + 1 + 1 else 2 * pos + 1 with hc2def
      have hc2 : c2 < heap.length := by
        rw [hc2def]; split
        · rename_i hco; exact hco.1
        · exact hcp
      have hne : pos ≠ c2 := by
        rw [hc2def]; split <;> omega
      exact ih _ s c2 item x (by simpa using hc2) (mem_set_transfer hpos hc2 hne hx)
    · apply siftdownLoop_mem pos _ s pos item x (by simpa using hpos)
      rw [List.set_set]
      exact hx

theorem heappush_length (heap : List Node) (item : Node) :
    (heappush heap item).length = heap.length + 1 := by
  simp [heappush, siftdown, siftdownLoop_length]

theorem getD_append_length (heap : List Node) (item : Node) :
    (heap ++ [item]).getD heap.length default = item := by
  rw [List.getD_eq_getElem _ default (by simp)]
  exact List.getElem_concat_length heap item heap.length rfl (by simp)

theorem mem_heappush {heap : List Node} {item x : Node} (hx : x ∈ heappush heap item) :
    x ∈ heap ∨ x = item := by
  rw [heappush, siftdown, getD_append_length] at hx
  rcases mem_siftdownLoop _ _ _ _ _ x (by simp) hx with h | h
  · rcases List.mem_append.mp h with h2 | h2
    · exact Or.inl h2
    · exact Or.inr (List.mem_singleton.mp h2)
  · exact Or.inr h

theorem heappush_mem_of_mem {heap : List Node} {item x : Node} (hx : x ∈ heap) :
    x ∈ heappush heap item := by
  rw [heappush, siftdown, getD_append_length]
  apply siftdownLoop_mem _ _ _ _ _ x (by simp)
  rw [List.mem_iff_getElem] at hx
  obtain ⟨k, hk, hkx⟩ := hx
  rw [List.mem_iff_getElem]
  refine ⟨k, by simp; omega, ?_⟩
  rw [List.getElem_set_ne (by omega) (by simp; omega),
    List.getElem_append_left (by simpa using hk)]
  exact hkx

theorem heappush_mem_item (heap : List Node) (item : Node) :
    item ∈ heappush heap item := by
  rw [heappush, siftdown, getD_append_length]
  apply siftdownLoop_mem _ _ _ _ _ item (by simp)
  rw [List.mem_iff_getElem]
  exact ⟨heap.length, by simp, List.getElem_set_self (by simp)⟩

theorem heappop_fst_mem {heap : List Node} (h : heap ≠ []) : (heappop heap).1 ∈ heap := by
  cases hl : heap.getLast? with
  | none => exact absurd (List.getLast?_eq_none_iff.mp hl) h
  | some a =>
    have hsplit := getLast?_split hl
    cases hd : heap.dropLast with
    | nil =>
      simp only [heappop, hl, hd]
      rw [hsplit, hd]
      simp
    | cons y rest =>
      simp only [heappop, hl, hd]
      rw [hsplit, hd]
      simp

theorem heappop_snd_length {heap : List Node} (h : heap ≠ []) :
    (heappop heap).2.length = heap.length - 1 := by
  cases hl : heap.getLast? with
  | none => exact absurd (List.getLast?_eq_none_iff.mp hl) h
  | some a =>
    have hsplit := getLast?_split hl
    cases hd : heap.dropLast with
    | nil =>
      simp only [heappop, hl, hd]
      rw [hsplit, hd]
      simp
    | cons y rest =>
      simp only [heappop, hl, hd]
      rw [siftup, siftupLoop_length]
      have : heap.dropLast.length = heap.length - 1 := by
        rw [List.length_dropLast]
      rw [hd] at this
      simpa using this

theorem heappop_snd_subset {heap : List Node} (h : heap ≠ []) :
    ∀ x ∈ (heappop heap).2, x ∈ heap := by
  intro x hx
  cases hl : heap.getLast? with
  | none => exact absurd (List.getLast?_eq_none_iff.mp hl) h
  | some a =>
    have hsplit := getLast?_split hl
    cases hd : heap.dropLast with
    | nil => rw [heappop, hl, hd] at hx; simp at hx
    | cons y rest =>
      rw [heappop, hl, hd] at hx
      simp only at hx
      rw [siftup] at hx
      have hmem := mem_siftupLoop _ _ _ _ _ x (by simp) hx
      have hgd : (a :: rest).getD 0 default = a := rfl
      rw [hgd] at hmem
      have hax : x = a ∨ x ∈ rest := by
        rcases hmem with hm | hm
        · rcases List.mem_cons.mp hm with h2 | h2
          · exact Or.inl h2
          · exact Or.inr h2
        · exact Or.inl hm
      rw [hsplit, hd]
      rcases hax with h2 | h2
      · subst h2; simp
      · exact List.mem_append_left _ (List.mem_cons_of_mem y h2)

theorem heappop_cover {heap : List Node} (h : heap ≠ []) :
    ∀ x ∈ heap, x = (heappop heap).1 ∨ x ∈ (heappop heap).2 := by
  intro x hx
  cases hl : heap.getLast? with
  | none => exact absurd (List.getLast?_eq_none_iff.mp hl) h
  | some a =>
    have hsplit := getLast?_split hl
    cases hd : heap.dropLast with
    | nil =>
      rw [hsplit, hd] at hx
      simp only [List.nil_append, List.mem_singleton] at hx
      subst hx
      rw [heappop, hl, hd]
      exact Or.inl rfl
    | cons y rest =>
      rw [heappop, hl, hd]
      simp only
      rw [hsplit, hd] at hx
      rcases List.mem_append.mp hx with h2 | h2
      · rcases List.mem_cons.mp h2 with h3 | h3
        · exact Or.inl h3
        · refine Or.inr ?_
          rw [siftup]
          apply siftupLoop_mem _ _ _ _ _ x (by simp)
          have hgd : (a :: rest).getD 0 default = a := rfl
          rw [hgd]
          have : (a :: rest).set 0 a = a :: rest := rfl
          rw [this]
          exact List.mem_cons_of_mem a h3
      · refine Or.inr ?_
        rw [List.mem_singleton] at h2
        subst h2
        rw [siftup]
        apply siftupLoop_mem _ _ _ _ _ x (by simp)
        have hgd : (x :: rest).getD 0 default = x := rfl
        rw [hgd]
        have : (x :: rest).set 0 x = x :: rest := rfl
        rw [this]
        exact List.mem_cons_self x rest

theorem buildLoop_singleton (fuel : Nat) (r : Node) : buildLoop fuel [r] = [r] := by
  cases fuel with
  | zero => rfl
  | succ n => simp [buildLoop]

theorem heappush_nil (item : Node) : heappush [] item = [item] := rfl

theorem heappop_singleton (r : Node) : heappop [r] = (r, []) := rfl

theorem buildLoop_step (fuel : Nat) (heap : List Node) (h : 1 < heap.length) :
    buildLoop (fuel + 1) heap =
      buildLoop fuel (heappush (heappop (heappop heap).2).2
        (Node.mk none ((heappop heap).1.freq + (heappop (heappop heap).2).1.freq)
          (some (heappop heap).1) (some (heappop (heappop heap).2).1))) := by
  simp only [buildLoop]
  rw [if_pos h]

theorem buildLoop_main (P Q : Node → Prop)
    (hP : ∀ a b, P a → P b → P (Node.mk none (a.freq + b.freq) (some a) (some b)))
    (hQL : ∀ a b, Q a → Q (Node.mk none (a.freq + b.freq) (some a) (some b)))
    (hQR : ∀ a b, Q b → Q (Node.mk none (a.freq + b.freq) (some a) (some b))) :
    ∀ (fuel : Nat) (heap : List Node), heap.length ≤ fuel → 1 ≤ heap.length →
      (∀ x ∈ heap, P x) → (∃ x, x ∈ heap ∧ Q x) →
      ∃ r, buildLoop fuel heap = [r] ∧ P r ∧ Q r := by
  intro fuel
  induction fuel with
  | zero => intro heap h1 h2 _ _; omega
  | succ n ih =>
    intro heap hlen hpos hPall hQex
    by_cases hgt : 1 < heap.length
    · have hne : heap ≠ [] := List.length_pos.mp (by omega)
      have h1mem := heappop_fst_mem hne
      have h1len := heappop_snd_length hne
      have h1ne : (heappop heap).2 ≠ [] := List.length_pos.mp (by omega)
      have h2mem := heappop_fst_mem h1ne
      have h2len := heappop_snd_length h1ne
      rw [buildLoop_step n heap hgt]
      apply ih
      · rw [heappush_length]; omega
      · rw [heappush_length]; omega
      · intro x hx
        rcases mem_heappush hx with h | h
        · exact hPall x (heappop_snd_subset hne x (heappop_snd_subset h1ne x h))
        · subst h
          exact hP _ _ (hPall _ h1mem) (hPall _ (heappop_snd_subset hne _ h2mem))
      · obtain ⟨x, hx, hq⟩ := hQex
        rcases heappop_cover hne x hx with h | h
        · exact ⟨_, heappush_mem_item _ _, hQL _ _ (h ▸ hq)⟩
        · rcases heappop_cover h1ne x h with h2 | h2
          · exact ⟨_, heappush_mem_item _ _, hQR _ _ (h2 ▸ hq)⟩
          · exact ⟨x, heappush_mem_of_mem h2, hq⟩
    · have hone : heap.length = 1 := by omega
      obtain ⟨r, hr⟩ := List.length_eq_one.mp hone
      subst hr
      refine ⟨r, by simp [buildLoop], hPall r (by simp), ?_⟩
      obtain ⟨x, hx, hq⟩ := hQex
      rw [List.mem_singleton] at hx
      subst hx
      exact hq

theorem buildLoop_internal :
    ∀ (fuel : Nat) (heap : List Node), heap.length ≤ fuel → 2 ≤ heap.length →
      ∃ r, buildLoop fuel heap = [r] ∧ r.char = none := by
  intro fuel
  induction fuel with
  | zero => intro heap h1 h2; omega
  | succ n ih =>
    intro heap hlen h2
    have hgt : 1 < heap.length := by omega
    have hne : heap ≠ [] := List.length_pos.mp (by omega)
    have h1len := heappop_snd_length hne
    have h1ne : (heappop heap).2 ≠ [] := List.length_pos.mp (by omega)
    have h2len := heappop_snd_length h1ne
    rw [buildLoop_step n heap hgt]
    by_cases hbig : 2 ≤ heap.length - 1
    · apply ih
      · rw [heappush_length]; omega
      · rw [heappush_length]; omega
    · have hnil : (heappop (heappop heap).2).2 = [] :=
        List.eq_nil_of_length_eq_zero (by omega)
      rw [hnil, heappush_nil, buildLoop_singleton]
      exact ⟨_, rfl, rfl⟩

theorem pushLeaves_cons (acc : List Node) (cf : Char × Nat) (t : List (Char × Nat)) :
    pushLeaves acc (cf :: t) =
      pushLeaves (heappush acc (Node.mk (some cf.1) cf.2 none none)) t := rfl

theorem pushLeaves_length :
    ∀ (l : List (Char × Nat)) (acc : List Node),
      (pushLeaves acc l).length = acc.length + l.length := by
  intro l
  induction l with
  | nil => intro acc; simp [pushLeaves]
  | cons cf t ih =>
    intro acc
    rw [pushLeaves_cons, ih, heappush_length]
    simp
    omega

theorem mem_pushLeaves :
    ∀ (l : List (Char × Nat)) (acc : List Node) (x : Node), x ∈ pushLeaves acc l →
      x ∈ acc ∨ ∃ cf, cf ∈ l ∧ x = Node.mk (some cf.1) cf.2 none none := by
  intro l
  induction l with
  | nil => intro acc x hx; exact Or.inl hx
  | cons cf t ih =>
    intro acc x hx
    rw [pushLeaves_cons] at hx
    rcases ih _ x hx with h | h
    · rcases mem_heappush h with h2 | h2
      · exact Or.inl h2
      · exact Or.inr ⟨cf, by simp, h2⟩
    · obtain ⟨cf2, hcf2, hx2⟩ := h
      exact Or.inr ⟨cf2, List.mem_cons_of_mem cf hcf2, hx2⟩

theorem pushLeaves_mem_of_mem :
    ∀ (l : List (Char × Nat)) (acc : List Node) (x : Node), x ∈ acc →
      x ∈ pushLeaves acc l := by
  intro l
  induction l with
  | nil => intro acc x hx; exact hx
  | cons cf t ih =>
    intro acc x hx
    rw [pushLeaves_cons]
    exact ih _ x (heappush_mem_of_mem hx)

theorem pushLeaves_mem_entry :
    ∀ (l : List (Char × Nat)) (acc : List Node) (cf : Char × Nat), cf ∈ l →
      Node.mk (some cf.1) cf.2 none none ∈ pushLeaves acc l := by
  intro l
  induction l with
  | nil => intro acc cf hcf; cases hcf
  | cons cf0 t ih =>
    intro acc cf hcf
    rcases List.mem_cons.mp hcf with h | h
    · subst h
      rw [pushLeaves_cons]
      exact pushLeaves_mem_of_mem t _ _ (heappush_mem_item _ _)
    · rw [pushLeaves_cons]
      exact ih _ cf h

theorem mem_dictKeys_counterIns (acc : List (Char × Nat)) (c x : Char) :
    x ∈ dictKeys (counterIns acc c) ↔ (x ∈ dictKeys acc ∨ x = c) := by
  induction acc with
  | nil => simp [counterIns, dictKeys]
  | cons kv rest ih =>
    obtain ⟨k, v⟩ := kv
    simp only [counterIns]
    by_cases hk : k = c
    · rw [if_pos hk]
      subst hk
      simp [dictKeys]
      tauto
    · rw [if_neg hk]
      simp only [dictKeys, List.map_cons, List.mem_cons] at *
      rw [ih]
      tauto

theorem mem_dictKeys_counter_fold :
    ∀ (text : List Char) (acc : List (Char × Nat)) (x : Char),
      x ∈ dictKeys (text.foldl counterIns acc) ↔ (x ∈ dictKeys acc ∨ x ∈ text) := by
  intro text
  induction text with
  | nil => intro acc x; simp
  | cons c t ih =>
    intro acc x
    rw [List.foldl_cons, ih, mem_dictKeys_counterIns]
    simp only [List.mem_cons]
    tauto

theorem mem_counter_keys (text : List Char) (x : Char) :
    x ∈ dictKeys (counter text) ↔ x ∈ text := by
  rw [counter, mem_dictKeys_counter_fold]
  simp [dictKeys]

theorem counter_ne_nil {text : List Char} (h : text ≠ []) : counter text ≠ [] := by
  obtain ⟨c, t, rfl⟩ := List.exists_cons_of_ne_nil h
  intro hc
  have hm := (mem_counter_keys (c :: t) c).mpr (by simp)
  rw [hc] at hm
  simp [dictKeys] at hm

theorem counter_length_two {text : List Char} {a b : Char}
    (ha : a ∈ text) (hb : b ∈ text) (hab : a ≠ b) : 2 ≤ (counter text).length := by
  have h1 : a ∈ dictKeys (counter text) := (mem_counter_keys text a).mpr ha
  have h2 : b ∈ dictKeys (counter text) := (mem_counter_keys text b).mpr hb
  have h3 := two_mem_le_length h1 h2 hab
  simpa [dictKeys] using h3

theorem counter_fold_replicate (c : Char) :
    ∀ (n m : Nat), List.foldl counterIns [(c, m)] (List.replicate n c) = [(c, m + n)] := by
  intro n
  induction n with
  | zero => intro m; simp
  | succ k ih =>
    intro m
    rw [List.replicate_succ, List.foldl_cons]
    have h1 : counterIns [(c, m)] c = [(c, m + 1)] := by simp [counterIns]
    rw [h1, ih]
    have h2 : m + 1 + k = m + (k + 1) := by omega
    rw [h2]

theorem counter_replicate (c : Char) (n : Nat) (h : 0 < n) :
    counter (List.replicate n c) = [(c, n)] := by
  cases n with
  | zero => omega
  | succ k =>
    rw [counter, List.replicate_succ, List.foldl_cons]
    have h1 : counterIns [] c = [(c, 1)] := rfl
    rw [h1, counter_fold_replicate]
    have h2 : 1 + k = k + 1 := by omega
    rw [h2]

theorem sum_counterIns (h : Char → Nat) (acc : List (Char × Nat)) (c : Char) :
    ((counterIns acc c).map (fun p => h p.1 * p.2)).sum =
      ((acc.map (fun p => h p.1 * p.2)).sum) + h c := by
  induction acc with
  | nil => simp [counterIns]
  | cons kv rest ih =>
    obtain ⟨k, v⟩ := kv
    simp only [counterIns]
    by_cases hk : k = c
    · rw [if_pos hk]
      subst hk
      simp only [List.map_cons, List.sum_cons]
      ring
    · rw [if_neg hk]
      simp only [List.map_cons, List.sum_cons, ih]
      ring

theorem sum_counter_fold (h : Char → Nat) :
    ∀ (text : List Char) (acc : List (Char × Nat)),
      ((text.foldl counterIns acc).map (fun p => h p.1 * p.2)).sum =
        ((acc.map (fun p => h p.1 * p.2)).sum) + (text.map h).sum := by
  intro text
  induction text with
  | nil => intro acc; simp
  | cons c t ih =>
    intro acc
    simp only [List.foldl_cons, List.map_cons, List.sum_cons]
    rw [ih, sum_counterIns]
    ring

theorem foldl_add_eq_sum (codes : List (Char × List Char)) :
    ∀ (l : List (Char × Nat)) (a : Nat),
      l.foldl (fun acc cf => acc + (dictGetD codes cf.1 []).length * cf.2) a =
        a + (l.map (fun p => (dictGetD codes p.1 []).length * p.2)).sum := by
  intro l
  induction l with
  | nil => intro a; simp
  | cons cf t ih =>
    intro a
    simp only [List.foldl_cons, List.map_cons, List.sum_cons]
    rw [ih]
    ring

theorem compressed_size_bits_eq_sum (frequencies : List (Char × Nat))
    (codes : List (Char × List Char)) :
    compressed_size_bits frequencies codes =
      (frequencies.map (fun p => (dictGetD codes p.1 []).length * p.2)).sum := by
  rw [compressed_size_bits, foldl_add_eq_sum]
  simp

theorem encode_text_length (text : List Char) (codes : List (Char × List Char)) :
    (encode_text text codes).length =
      (text.map (fun c => (dictGetD codes c []).length)).sum := by
  rw [encode_text, List.length_flatten, List.map_map]
  rfl

@[elab_as_elim]
theorem node_ind (motive : Node → Prop)
    (h : ∀ (c : Option Char) (f : Nat) (l r : Option Node),
      (∀ ln, l = some ln → motive ln) → (∀ rn, r = some rn → motive rn) →
      motive (.mk c f l r)) :
    ∀ n, motive n := by
  have hosz : ∀ (c : Option Char) (f : Nat) (l r : Option Node),
      Node.size (.mk c f l r) = 1 + osize l + osize r := by
    intro c f l r
    cases l <;> cases r <;> rfl
  have hsize : ∀ (k : Nat) (n : Node), n.size ≤ k → motive n := by
    intro k
    induction k with
    | zero =>
      intro n hn
      exfalso
      match n with
      | .mk c f l r =>
        rw [hosz] at hn
        omega
    | succ k ih =>
      intro n hn
      match n with
      | .mk c f l r =>
        rw [hosz] at hn
        apply h
        · intro ln hl
          subst hl
          have h1 : osize (some ln) = ln.size := rfl
          exact ih ln (by omega)
        · intro rn hr
          subst hr
          have h1 : osize (some rn) = rn.size := rfl
          exact ih rn (by omega)
  intro n
  exact hsize n.size n le_rfl

theorem mem_dictSet (d : List (Char × List Char)) (k : Char) (v : List Char) :
    ∀ p, p ∈ dictSet d k v → p ∈ d ∨ p = (k, v) := by
  induction d with
  | nil =>
    intro p hp
    simp only [dictSet, List.mem_singleton] at hp
    exact Or.inr hp
  | cons kv rest ih =>
    obtain ⟨k0, v0⟩ := kv
    intro p hp
    simp only [dictSet] at hp
    by_cases hk : k0 = k
    · rw [if_pos hk] at hp
      rcases List.mem_cons.mp hp with h | h
      · subst hk
        exact Or.inr h
      · exact Or.inl (List.mem_cons_of_mem _ h)
    · rw [if_neg hk] at hp
      rcases List.mem_cons.mp hp with h | h
      · exact Or.inl (by simp [h])
      · rcases ih p h with h2 | h2
        · exact Or.inl (List.mem_cons_of_mem _ h2)
        · exact Or.inr h2

theorem mem_dictKeys_dictSet (d : List (Char × List Char)) (k : Char) (v : List Char)
    (x : Char) : x ∈ dictKeys (dictSet d k v) ↔ (x ∈ dictKeys d ∨ x = k) := by
  induction d with
  | nil => simp [dictSet, dictKeys]
  | cons kv rest ih =>
    obtain ⟨k0, v0⟩ := kv
    simp only [dictSet]
    by_cases hk : k0 = k
    · rw [if_pos hk]
      subst hk
      simp [dictKeys]
      tauto
    · rw [if_neg hk]
      simp only [dictKeys, List.map_cons, List.mem_cons] at *
      rw [ih]
      tauto

theorem mem_getCodesN :
    ∀ (n : Node) (cur : List Char) (acc : List (Char × List Char)) (p : Char × List Char),
      p ∈ getCodesN n cur acc → p ∈ acc ∨ p ∈ leafCodesN n cur := by
  intro n
  induction n using node_ind with
  | h c f l r ihl ihr =>
    intro cur acc p hp
    cases c with
    | some ch =>
      simp only [getCodesN] at hp
      by_cases hcur : cur = []
      · rw [if_pos hcur] at hp
        rcases mem_dictSet _ _ _ p hp with h2 | h2
        · exact Or.inl h2
        · refine Or.inr ?_
          simp [leafCodesN, hcur, h2]
      · rw [if_neg hcur] at hp
        rcases mem_dictSet _ _ _ p hp with h2 | h2
        · exact Or.inl h2
        · refine Or.inr ?_
          simp [leafCodesN, hcur, h2]
    | none =>
      cases l with
      | none =>
        cases r with
        | none =>
          exact Or.inl hp
        | some rn =>
          rcases ihr rn rfl _ _ p hp with h2 | h2
          · exact Or.inl h2
          · refine Or.inr ?_
            simp only [leafCodesN]
            exact List.mem_append_right _ h2
      | some ln =>
        cases r with
        | none =>
          rcases ihl ln rfl _ _ p hp with h2 | h2
          · exact Or.inl h2
          · refine Or.inr ?_
            simp only [leafCodesN]
            exact List.mem_append_left _ h2
        | some rn =>
          rcases ihr rn rfl _ _ p hp with h2 | h2
          · rcases ihl ln rfl _ _ p h2 with h3 | h3
            · exact Or.inl h3
            · refine Or.inr ?_
              simp only [leafCodesN]
              exact List.mem_append_left _ h3
          · refine Or.inr ?_
            simp only [leafCodesN]
            exact List.mem_append_right _ h2

theorem dictKeys_getCodesN :
    ∀ (n : Node) (cur : List Char) (acc : List (Char × List Char)) (x : Char),
      x ∈ dictKeys (getCodesN n cur acc) ↔ (x ∈ dictKeys acc ∨ x ∈ leafCharsN n) := by
  intro n
  induction n using node_ind with
  | h c f l r ihl ihr =>
    intro cur acc x
    cases c with
    | some ch =>
      simp only [getCodesN, leafCharsN]
      by_cases hcur : cur = []
      · rw [if_pos hcur, mem_dictKeys_dictSet]
        simp
      · rw [if_neg hcur, mem_dictKeys_dictSet]
        simp
    | none =>
      cases l with
      | none =>
        cases r with
        | none => simp [getCodesN, leafCharsN]
        | some rn =>
          simp only [getCodesN, leafCharsN]
          rw [ihr rn rfl]
          simp
      | some ln =>
        cases r with
        | none =>
          simp only [getCodesN, leafCharsN]
          rw [ihl ln rfl]
          simp
        | some rn =>
          simp only [getCodesN, leafCharsN]
          rw [ihr rn rfl, ihl ln rfl]
          simp only [List.mem_append]
          tauto

theorem leafCodesN_extends :
    ∀ (n : Node) (cur : List Char), cur ≠ [] →
      ∀ p, p ∈ leafCodesN n cur → ∃ s, p.2 = cur ++ s := by
  intro n
  induction n using node_ind with
  | h c f l r ihl ihr =>
    intro cur hcur p hp
    cases c with
    | some ch =>
      simp only [leafCodesN, if_neg hcur, List.mem_singleton] at hp
      exact ⟨[], by simp [hp]⟩
    | none =>
      have hl0 : ∀ ln, l = some ln → p ∈ leafCodesN ln (cur ++ ['0']) → ∃ s, p.2 = cur ++ s := by
        intro ln hln hpl
        obtain ⟨s, hs⟩ := ihl ln hln (cur ++ ['0']) (by simp) p hpl
        exact ⟨'0' :: s, by simp [hs]⟩
      have hr0 : ∀ rn, r = some rn → p ∈ leafCodesN rn (cur ++ ['1']) → ∃ s, p.2 = cur ++ s := by
        intro rn hrn hpr
        obtain ⟨s, hs⟩ := ihr rn hrn (cur ++ ['1']) (by simp) p hpr
        exact ⟨'1' :: s, by simp [hs]⟩
      cases l with
      | none =>
        cases r with
        | none => simp [leafCodesN] at hp
        | some rn =>
          simp only [leafCodesN, List.nil_append] at hp
          exact hr0 rn rfl hp
      | some ln =>
        cases r with
        | none =>
          simp only [leafCodesN, List.append_nil] at hp
          exact hl0 ln rfl hp
        | some rn =>
          simp only [leafCodesN, List.mem_append] at hp
          rcases hp with hp | hp
          · exact hl0 ln rfl hp
          · exact hr0 rn rfl hp

theorem leafCodesN_inj :
    ∀ (n : Node) (cur : List Char) (p1 p2 : Char × List Char),
      p1 ∈ leafCodesN n cur → p2 ∈ leafCodesN n cur → (∃ t, p1.2 ++ t = p2.2) →
      p1 = p2 := by
  intro n
  induction n using node_ind with
  | h c f l r ihl ihr =>
    intro cur p1 p2 h1 h2 hpre
    cases c with
    | some ch =>
      simp only [leafCodesN, List.mem_singleton] at h1 h2
      rw [h1, h2]
    | none =>
      have cross01 : ∀ (q1 q2 : Char × List Char) (ln rn : Node),
          q1 ∈ leafCodesN ln (cur ++ ['0']) → q2 ∈ leafCodesN rn (cur ++ ['1']) →
          ¬ ∃ t, q1.2 ++ t = q2.2 := by
        intro q1 q2 ln rn hq1 hq2 ⟨t, ht⟩
        obtain ⟨s1, hs1⟩ := leafCodesN_extends ln (cur ++ ['0']) (by simp) q1 hq1
        obtain ⟨s2, hs2⟩ := leafCodesN_extends rn (cur ++ ['1']) (by simp) q2 hq2
        rw [hs1, hs2] at ht
        have ht2 : cur ++ ('0' :: (s1 ++ t)) = cur ++ ('1' :: s2) := by
          simpa using ht
        have := List.append_cancel_left ht2
        simp at this
      have cross10 : ∀ (q1 q2 : Char × List Char) (ln rn : Node),
          q1 ∈ leafCodesN rn (cur ++ ['1']) → q2 ∈ leafCodesN ln (cur ++ ['0']) →
          ¬ ∃ t, q1.2 ++ t = q2.2 := by
        intro q1 q2 ln rn hq1 hq2 ⟨t, ht⟩
        obtain ⟨s1, hs1⟩ := leafCodesN_extends rn (cur ++ ['1']) (by simp) q1 hq1
        obtain ⟨s2, hs2⟩ := leafCodesN_extends ln (cur ++ ['0']) (by simp) q2 hq2
        rw [hs1, hs2] at ht
        have ht2 : cur ++ ('1' :: (s1 ++ t)) = cur ++ ('0' :: s2) := by
          simpa using ht
        have := List.append_cancel_left ht2
        simp at this
      cases l with
      | none =>
        cases r with
        | none => simp [leafCodesN] at h1
        | some rn =>
          simp only [leafCodesN, List.nil_append] at h1 h2
          exact ihr rn rfl _ p1 p2 h1 h2 hpre
      | some ln =>
        cases r with
        | none =>
          simp only [leafCodesN, List.append_nil] at h1 h2
          exact ihl ln rfl _ p1 p2 h1 h2 hpre
        | some rn =>
          simp only [leafCodesN, List.mem_append] at h1 h2
          rcases h1 with h1 | h1
          · rcases h2 with h2 | h2
            · exact ihl ln rfl _ p1 p2 h1 h2 hpre
            · exact absurd hpre (cross01 p1 p2 ln rn h1 h2)
          · rcases h2 with h2 | h2
            · exact absurd hpre (cross10 p1 p2 ln rn h1 h2)
            · exact ihr rn rfl _ p1 p2 h1 h2 hpre

theorem allNodesOK_leaf (c : Char) (f : Nat) :
    allNodesOK (.mk (some c) f none none) = true := rfl

theorem allNodesOK_merge (a b : Node) (ha : allNodesOK a = true) (hb : allNodesOK b = true) :
    allNodesOK (.mk none (a.freq + b.freq) (some a) (some b)) = true := by
  simp [allNodesOK, ha, hb]

theorem leafCharsN_leaf (c : Char) (f : Nat) :
    leafCharsN (.mk (some c) f none none) = [c] := rfl

theorem leafCharsN_internal (f : Nat) (a b : Node) :
    leafCharsN (.mk none f (some a) (some b)) = leafCharsN a ++ leafCharsN b := rfl

theorem leafCharsN_wrap (f : Nat) (a : Node) :
    leafCharsN (.mk none f (some a) none) = leafCharsN a := by
  show leafCharsN a ++ [] = leafCharsN a
  simp

theorem build_parts {text : List Char} (h : text ≠ []) :
    (build_huffman_tree text).2 = counter text ∧
      (build_huffman_tree text).1 =
        some ((build_huffman_tree text).1.getD default) := by
  simp [build_huffman_tree, if_neg h]

theorem build_two_symbols {text : List Char} {a b : Char}
    (ha : a ∈ text) (hb : b ∈ text) (hab : a ≠ b) :
    ∃ r, (build_huffman_tree text).1 = some r ∧ allNodesOK r = true ∧ r.char = none := by
  have hne : text ≠ [] := by rintro rfl; cases ha
  have hc2 : 2 ≤ (counter text).length := counter_length_two ha hb hab
  simp only [build_huffman_tree, if_neg hne]
  have hpq0len : (pushLeaves [] (counter text)).length = (counter text).length := by
    rw [pushLeaves_length]; simp
  have hif : ¬ (pushLeaves [] (counter text)).length = 1 := by omega
  simp only [if_neg hif]
  have hne0 : pushLeaves [] (counter text) ≠ [] := by
    rw [← List.length_pos]; omega
  have hPinit : ∀ x ∈ pushLeaves [] (counter text), allNodesOK x = true := by
    intro x hx
    rcases mem_pushLeaves _ _ _ hx with h0 | ⟨cf, _, rfl⟩
    · cases h0
    · exact allNodesOK_leaf cf.1 cf.2
  have hQinit : ∃ x, x ∈ pushLeaves [] (counter text) ∧ True := by
    obtain ⟨x, hx⟩ := List.exists_mem_of_ne_nil _ hne0
    exact ⟨x, hx, trivial⟩
  obtain ⟨r1, hr1, hOK, _⟩ :=
    buildLoop_main (fun n => allNodesOK n = true) (fun _ => True)
      (fun a b ha hb => allNodesOK_merge a b ha hb)
      (fun _ _ _ => trivial) (fun _ _ _ => trivial)
      (pushLeaves [] (counter text)).length (pushLeaves [] (counter text))
      le_rfl (by omega) hPinit hQinit
  obtain ⟨r2, hr2, hint⟩ :=
    buildLoop_internal (pushLeaves [] (counter text)).length (pushLeaves [] (counter text))
      le_rfl (by omega)
  rw [hr1] at hr2
  injection hr2 with hr12 _
  rw [hr1, heappop_singleton]
  exact ⟨r1, rfl, hOK, by rw [hr12]; exact hint⟩

theorem build_leafChars {text : List Char} (h : text ≠ []) :
    ∃ r, (build_huffman_tree text).1 = some r ∧
      (∀ x, x ∈ leafCharsN r ↔ x ∈ dictKeys (counter text)) := by
  have hc1 : counter text ≠ [] := counter_ne_nil h
  have hclen1 : 1 ≤ (counter text).length := List.length_pos.mpr hc1
  simp only [build_huffman_tree, if_neg h]
  have hpq0len : (pushLeaves [] (counter text)).length = (counter text).length := by
    rw [pushLeaves_length]; simp
  by_cases hone : (pushLeaves [] (counter text)).length = 1
  · have hclen : (counter text).length = 1 := by omega
    obtain ⟨cf, hcf⟩ := List.length_eq_one.mp hclen
    obtain ⟨k, v⟩ := cf
    simp only [if_pos hone, hcf]
    have hps : pushLeaves [] [(k, v)] = [Node.mk (some k) v none none] := rfl
    rw [hps, heappop_singleton]
    simp only [heappush_nil]
    have hcond : ([Node.mk (some k) v none none] : List Node).length = 1 := rfl
    rw [if_pos hcond, buildLoop_singleton, heappop_singleton]
    refine ⟨_, rfl, ?_⟩
    intro x
    rw [leafCharsN_wrap, leafCharsN_leaf]
    simp [dictKeys]
  · simp only [if_neg hone]
    have hne0 : pushLeaves [] (counter text) ≠ [] := by
      rw [← List.length_pos]; omega
    have hPinit : ∀ y ∈ pushLeaves [] (counter text),
        ∀ x ∈ leafCharsN y, x ∈ dictKeys (counter text) := by
      intro y hy
      rcases mem_pushLeaves _ _ _ hy with h0 | ⟨cf, hcf, rfl⟩
      · cases h0
      · intro x hx
        rw [leafCharsN_leaf] at hx
        rw [List.mem_singleton] at hx
        subst hx
        exact List.mem_map_of_mem Prod.fst hcf
    have hQinit : ∃ y, y ∈ pushLeaves [] (counter text) ∧ True := by
      obtain ⟨y, hy⟩ := List.exists_mem_of_ne_nil _ hne0
      exact ⟨y, hy, trivial⟩
    obtain ⟨r1, hr1, hsub, _⟩ :=
      buildLoop_main (fun n => ∀ x ∈ leafCharsN n, x ∈ dictKeys (counter text))
        (fun _ => True)
        (by
          intro a b ha hb x hx
          rw [leafCharsN_internal] at hx
          rcases List.mem_append.mp hx with h2 | h2
          · exact ha x h2
          · exact hb x h2)
        (fun _ _ _ => trivial) (fun _ _ _ => trivial)
        (pushLeaves [] (counter text)).length (pushLeaves [] (counter text))
        le_rfl (by omega) hPinit hQinit
    rw [hr1, heappop_singleton]
    refine ⟨r1, rfl, ?_⟩
    intro x
    constructor
    · exact hsub x
    · intro hx
      obtain ⟨cf, hcf, hcfx⟩ := List.mem_map.mp hx
      obtain ⟨r2, hr2, _, hq⟩ :=
        buildLoop_main (fun _ => True) (fun n => x ∈ leafCharsN n)
          (fun _ _ _ _ => trivial)
          (by
            intro a b hqa
            show x ∈ leafCharsN (Node.mk none (a.freq + b.freq) (some a) (some b))
            rw [leafCharsN_internal]
            exact List.mem_append_left _ hqa)
          (by
            intro a b hqb
            show x ∈ leafCharsN (Node.mk none (a.freq + b.freq) (some a) (some b))
            rw [leafCharsN_internal]
            exact List.mem_append_right _ hqb)
          (pushLeaves [] (counter text)).length (pushLeaves [] (counter text))
          le_rfl (by omega) (fun _ _ => trivial)
          ⟨Node.mk (some cf.1) cf.2 none none,
            pushLeaves_mem_entry _ _ _ hcf, by
              show x ∈ leafCharsN (Node.mk (some cf.1) cf.2 none none)
              rw [leafCharsN_leaf, hcfx]
              simp⟩
      rw [hr1] at hr2
      injection hr2 with hr12 _
      rw [← hr12] at hq
      exact hq

theorem generate_parts {text : List Char} (h : text ≠ []) :
    ∃ r, (build_huffman_tree text).1 = some r ∧
      generate_huffman_codes text = (getCodesN r [] [], counter text, some r) := by
  have hb := build_parts h
  refine ⟨(build_huffman_tree text).1.getD default, hb.2, ?_⟩
  simp only [generate_huffman_codes]
  rw [hb.2]
  simp only [getCodes]
  rw [hb.1]
  simp

theorem build_replicate (c : Char) (n : Nat) (h : 0 < n) :
    build_huffman_tree (List.replicate n c) =
      (some (.mk none n (some (.mk (some c) n none none)) none), [(c, n)]) := by
  have hne : List.replicate n c ≠ [] := by
    intro hh
    have hlen := congrArg List.length hh
    simp at hlen
    omega
  simp only [build_huffman_tree, if_neg hne]
  rw [counter_replicate c n h]
  have hps : pushLeaves [] [(c, n)] = [Node.mk (some c) n none none] := rfl
  rw [hps]
  have hcond : ([Node.mk (some c) n none none] : List Node).length = 1 := rfl
  rw [if_pos hcond, heappop_singleton]
  simp only [heappush_nil, Node.freq]
  rw [buildLoop_singleton, heappop_singleton]

/-- C1 (counterexample): on the single-symbol input "A" the builder wraps the
lone leaf in a synthetic internal node `Node(None, 1, leaf, None)` whose
right child is absent, so the claim that every internal node of the built
tree has both children present fails. -/
theorem build_internal_wf_cex : allNodesOKO (build_huffman_tree ['A']).1 = false := by decide

/-- C1 (amended): for every input containing at least two distinct symbols,
every internal (character-free) node of the tree returned by
`build_huffman_tree` has both a left and a right child present and carries
a frequency equal to the sum of its children's frequencies. -/
theorem build_internal_wf (text : List Char) (a b : Char)
    (ha : a ∈ text) (hb : b ∈ text) (hab : a ≠ b) :
    allNodesOKO (build_huffman_tree text).1 = true := by
  obtain ⟨r, hr, hOK, _⟩ := build_two_symbols ha hb hab
  rw [hr]
  exact hOK

/-- Witness for C1 (amended) at the concrete input "ab". -/
theorem build_internal_wf_wit :
    ('a' : Char) ∈ ['a', 'b'] ∧ ('b' : Char) ∈ ['a', 'b'] ∧ ('a' : Char) ≠ 'b' ∧
      allNodesOKO (build_huffman_tree ['a', 'b']).1 = true :=
  ⟨by decide, by decide, by decide,
    build_internal_wf ['a', 'b'] 'a' 'b' (by decide) (by decide) (by decide)⟩

/-- C2: for any input consisting of `n > 0` copies of one symbol `c` (such
as "AAAAA" with `c = 'A'`, `n = 5`), the frequency table is `{c: n}`, the
tree is the synthetic internal node wrapping the single leaf as its left
child, the code table maps `c` to the one-character string "0", and
`compressed_size_bits` equals `n`. -/
theorem single_symbol_case (c : Char) (n : Nat) (h : 0 < n) :
    (generate_huffman_codes (List.replicate n c)).2.1 = [(c, n)] ∧
    (generate_huffman_codes (List.replicate n c)).2.2 =
      some (.mk none n (some (.mk (some c) n none none)) none) ∧
    (generate_huffman_codes (List.replicate n c)).1 = [(c, ['0'])] ∧
    compressed_size_bits (generate_huffman_codes (List.replicate n c)).2.1
      (generate_huffman_codes (List.replicate n c)).1 = n := by
  have hb := build_replicate c n h
  have hg : generate_huffman_codes (List.replicate n c) =
      ([(c, ['0'])], [(c, n)],
        some (.mk none n (some (.mk (some c) n none none)) none)) := by
    simp only [generate_huffman_codes, hb]
    rfl
  rw [hg]
  refine ⟨rfl, rfl, rfl, ?_⟩
  simp [compressed_size_bits, dictGetD]

/-- Witness for C2 at the concrete input "AAAAA". -/
theorem single_symbol_case_wit :
    0 < 5 ∧
      ((generate_huffman_codes (List.replicate 5 'A')).2.1 = [('A', 5)] ∧
      (generate_huffman_codes (List.replicate 5 'A')).2.2 =
        some (.mk none 5 (some (.mk (some 'A') 5 none none)) none) ∧
      (generate_huffman_codes (List.replicate 5 'A')).1 = [('A', ['0'])] ∧
      compressed_size_bits (generate_huffman_codes (List.replicate 5 'A')).2.1
        (generate_huffman_codes (List.replicate 5 'A')).1 = 5) :=
  ⟨by decide, single_symbol_case 'A' 5 (by decide)⟩

/-- C3: for every input with at least two distinct symbols, the generated
code table is prefix-free: codes of distinct symbols are never prefixes of
one another (`∃ t, s1 ++ t = s2` states that `s1` is a prefix of `s2`). -/
theorem prefix_free (text : List Char) (a b : Char)
    (ha : a ∈ text) (hb : b ∈ text) (hab : a ≠ b)
    (c1 c2 : Char) (s1 s2 : List Char)
    (h1 : (c1, s1) ∈ (generate_huffman_codes text).1)
    (h2 : (c2, s2) ∈ (generate_huffman_codes text).1)
    (hcc : c1 ≠ c2) :
    ¬ ∃ t, s1 ++ t = s2 := by
  have hne : text ≠ [] := by rintro rfl; cases ha
  obtain ⟨r, hr, hg⟩ := generate_parts hne
  rw [hg] at h1 h2
  simp only at h1 h2
  rcases mem_getCodesN r [] [] _ h1 with h1' | h1'
  · cases h1'
  rcases mem_getCodesN r [] [] _ h2 with h2' | h2'
  · cases h2'
  intro hpre
  have heq := leafCodesN_inj r [] (c1, s1) (c2, s2) h1' h2' hpre
  exact hcc (congrArg Prod.fst heq)

/-- Witness for C3 at the concrete input "ab". -/
theorem prefix_free_wit :
    ('a' : Char) ∈ ['a', 'b'] ∧
      (('a', ['0']) ∈ (generate_huffman_codes ['a', 'b']).1) ∧
      (('b', ['1']) ∈ (generate_huffman_codes ['a', 'b']).1) ∧
      ¬ ∃ t, ['0'] ++ t = ['1'] :=
  ⟨by decide, by decide, by decide,
    prefix_free ['a', 'b'] 'a' 'b' (by decide) (by decide) (by decide)
      'a' 'b' ['0'] ['1'] (by decide) (by decide) (by decide)⟩

/-- C4: for every input, the set of keys of the generated code table equals
the set of keys of the frequency table. -/
theorem coverage (text : List Char) (x : Char) :
    x ∈ dictKeys (generate_huffman_codes text).1 ↔
      x ∈ dictKeys (generate_huffman_codes text).2.1 := by
  by_cases h : text = []
  · subst h
    exact Iff.rfl
  · obtain ⟨r, hr, hg⟩ := generate_parts h
    obtain ⟨r2, hr2, hlc⟩ := build_leafChars h
    rw [hr] at hr2
    injection hr2 with hr12
    subst hr12
    rw [hg]
    simp only
    rw [dictKeys_getCodesN r [] []]
    constructor
    · intro hx
      rcases hx with hx | hx
      · simp [dictKeys] at hx
      · exact (hlc x).mp hx
    · intro hx
      exact Or.inr ((hlc x).mpr hx)

/-- C5: the empty input yields an empty frequency table, an empty code
table and an absent tree, the original size is 0 bits, and the savings
percentage is 0 by the explicit zero guard of `savings_percent`. -/
theorem empty_input :
    generate_huffman_codes [] = ([], [], none) ∧
    original_size_bits [] = 0 ∧
    savings_percent [] (generate_huffman_codes []).2.1 (generate_huffman_codes []).1 = 0 :=
  ⟨rfl, rfl, rfl⟩

/-- C6: for every input, concatenating each input symbol's code from the
code table yields a bitstring whose length is exactly
`compressed_size_bits` as computed by the program (the sum over distinct
symbols of frequency times code length). -/
theorem round_trip (text : List Char) :
    (encode_text text (generate_huffman_codes text).1).length =
      compressed_size_bits (generate_huffman_codes text).2.1
        (generate_huffman_codes text).1 := by
  have hfreqs : (generate_huffman_codes text).2.1 = counter text := by
    by_cases h : text = []
    · subst h; rfl
    · obtain ⟨r, _, hg⟩ := generate_parts h
      rw [hg]
  rw [hfreqs, compressed_size_bits_eq_sum, encode_text_length, counter]
  have hs := sum_counter_fold
    (fun ch => (dictGetD (generate_huffman_codes text).1 ch []).length) text []
  simp only [List.map_nil, List.sum_nil, Nat.zero_add] at hs
  exact hs.symm

/-- C7: on the input "AAAAABBBCC" (A:5, B:3, C:2) the code lengths are
ordered `len(code A) ≤ len(code B) ≤ len(code C)`, and the compressed bit
count is strictly below the original 80 bits. -/
theorem known_example :
    (dictGetD (generate_huffman_codes ['A','A','A','A','A','B','B','B','C','C']).1 'A' []).length ≤
      (dictGetD (generate_huffman_codes ['A','A','A','A','A','B','B','B','C','C']).1 'B' []).length ∧
    (dictGetD (generate_huffman_codes ['A','A','A','A','A','B','B','B','C','C']).1 'B' []).length ≤
      (dictGetD (generate_huffman_codes ['A','A','A','A','A','B','B','B','C','C']).1 'C' []).length ∧
    compressed_size_bits (generate_huffman_codes ['A','A','A','A','A','B','B','B','C','C']).2.1
      (generate_huffman_codes ['A','A','A','A','A','B','B','B','C','C']).1 <
      original_size_bits ['A','A','A','A','A','B','B','B','C','C'] ∧
    original_size_bits ['A','A','A','A','A','B','B','B','C','C'] = 80 := by
  decide

/-- C8: the pipeline is a pure function, so two runs on identical inputs
produce identical code tables, frequency tables and trees. -/
theorem deterministic (t1 t2 : List Char) (h : t1 = t2) :
    generate_huffman_codes t1 = generate_huffman_codes t2 := by
  rw [h]

/-- Witness for C8 at the concrete input "ab". -/
theorem deterministic_wit :
    (['a', 'b'] : List Char) = ['a', 'b'] ∧
      generate_huffman_codes ['a', 'b'] = generate_huffman_codes ['a', 'b'] :=
  ⟨rfl, deterministic ['a', 'b'] ['a', 'b'] rfl⟩

/-- C9: in every merge step of the builder's loop, the first node popped
from the priority queue becomes the left child and the second the right
child of the new internal node; the children are determined purely by pop
order. -/
theorem merge_step_child_order (fuel : Nat) (heap : List Node) (h : 1 < heap.length) :
    buildLoop (fuel + 1) heap =
      buildLoop fuel (heappush (heappop (heappop heap).2).2
        (Node.mk none ((heappop heap).1.freq + (heappop (heappop heap).2).1.freq)
          (some (heappop heap).1) (some (heappop (heappop heap).2).1))) :=
  buildLoop_step fuel heap h

/-- Witness for C9 at a concrete two-element heap. -/
theorem merge_step_child_order_wit :
    (1 < ([Node.mk (some 'a') 1 none none, Node.mk (some 'b') 2 none none] : List Node).length) ∧
      buildLoop (0 + 1) [Node.mk (some 'a') 1 none none, Node.mk (some 'b') 2 none none] =
        buildLoop 0 (heappush
          (heappop (heappop
            [Node.mk (some 'a') 1 none none, Node.mk (some 'b') 2 none none]).2).2
          (Node.mk none
            ((heappop [Node.mk (some 'a') 1 none none,
                Node.mk (some 'b') 2 none none]).1.freq +
              (heappop (heappop [Node.mk (some 'a') 1 none none,
                Node.mk (some 'b') 2 none none]).2).1.freq)
            (some (heappop [Node.mk (some 'a') 1 none none,
              Node.mk (some 'b') 2 none none]).1)
            (some (heappop (heappop [Node.mk (some 'a') 1 none none,
              Node.mk (some 'b') 2 none none]).2).1))) :=
  ⟨by decide, merge_step_child_order 0 _ (by decide)⟩

/-- C10: the code-generation traversal is total (it is a function in this
embedding), its `None` guard returns the accumulator unchanged, recording
nothing, and on the single-symbol wrapper tree (absent right child) it
records exactly the one entry for the left leaf. -/
theorem traversal_none_guard :
    (∀ (cur : List Char) (codes : List (Char × List Char)),
      getCodes none cur codes = codes) ∧
    (∀ (c : Char) (f : Nat),
      getCodes (some (.mk none f (some (.mk (some c) f none none)) none)) [] [] =
        [(c, ['0'])]) :=
  ⟨fun _ _ => rfl, fun _ _ => rfl⟩
